import Mathlib

/-!
Verification of the Moon Visibility and Lunar-Month Computation Engine.

Shallow embedding of the core functions of the repository:
timestamps are modelled as integers (milliseconds since the epoch, the value
of Date.getTime), real-valued quantities as rationals, and the external
astronomy-engine library as an oracle structure of query functions.  Each
definition mirrors one source function; the doc comment of a definition names
the source function it embeds.
-/

/-- Milliseconds in one day.  The source advances day-by-day with
setDate(getDate() + 1) on dates normalised to UTC midnight, which is one
24-hour step. -/
def dayMs : ℤ := 86400000

/-- UTC-midnight normalisation, as performed by setUTCHours(0,0,0,0) on a
Date holding timestamp t. -/
def floorDay (t : ℤ) : ℤ := (Int.fdiv t dayMs) * dayMs

/-- Truncation toward zero of a rational, as performed by the Date
constructor on a fractional millisecond value (ToIntegerOrInfinity). -/
def ratTrunc (q : ℚ) : ℤ := Int.tdiv q.num (q.den : ℤ)

/-- The remainder operator of the host language: a % b with the sign of the
dividend, used by normalizeLon. -/
def jsMod (a b : ℚ) : ℚ := a - b * (ratTrunc (a / b) : ℚ)

/-- Math.round: round half toward positive infinity. -/
def jsRound (q : ℚ) : ℤ := ⌊q + 1/2⌋

/-- Math.sign restricted to the values the source feeds it. -/
def jsSign (q : ℚ) : ℤ := if 0 < q then 1 else if q < 0 then -1 else 0

/-- Embeds normalizeLon from astronomy.js: normalise a longitude to the
interval from -180 inclusive to 180 exclusive. -/
def normalizeLon (lon : ℚ) : ℚ :=
  let normalized := jsMod (lon + 180) 360 - 180
  let n1 := if normalized < -180 then normalized + 360 else normalized
  if 180 ≤ n1 then n1 - 360 else n1

/-- Embeds getLongitudeBasedTimezone from astronomy.js:
sign(lon) * round(abs(lon) / 15) hours. -/
def getLongitudeBasedTimezone (lon : ℚ) : ℤ := jsSign lon * jsRound (|lon| / 15)

/-- Oracle for the external astronomy-engine library, specialised to one
observer.  Each field models one query the engine answers for that observer:
searchSunset models SearchRiseSet of the Sun downward from a start time
within one day; searchMoonset models SearchRiseSet of the Moon downward from
sunset within two days; searchSunrise models SearchRiseSet of the Sun upward
from a start time within the given number of days; searchTwilightEnd models
SearchAltitude of the Sun falling through -18 degrees after sunset;
moonAltitude and sunAltitude model topocentric airless altitudes at a time;
crescentW models the crescent width in arcminutes at a time (the elongation,
geocentric distance and trigonometry of steps 7 to 9 of getVisibility, which
live in the external library and real-valued trigonometry). -/
structure Ephemeris where
  searchSunset : ℤ → Option ℤ
  searchMoonset : ℤ → Option ℤ
  searchSunrise : ℤ → ℤ → Option ℤ
  searchTwilightEnd : ℤ → Option ℤ
  moonAltitude : ℤ → ℚ
  sunAltitude : ℤ → ℚ
  crescentW : ℤ → ℚ

/-- The visibility codes of getVisibility: U undetermined, I impossible,
EV easily visible, VP visible under perfect conditions, VO visible with
optical aid, NV not visible. -/
inductive VisCode where
  | U
  | I
  | EV
  | VP
  | VO
  | NV
deriving DecidableEq

/-- The reason strings of getVisibility, as an enumeration. -/
inductive FailReason where
  | noSunsetFound
  | noMoonsetFound
  | moonSetsBeforeOrAtSunset
  | conjunctionOccursAfterSunset
deriving DecidableEq

/-- The result record of getVisibility (the fields the engine consumers
read; the local-time convenience copies are omitted). -/
structure VisResult where
  code : VisCode
  value : Option ℚ := none
  reason : Option FailReason := none
  conjunctionTriggered : Bool := false
  lag : Option ℚ := none
  arcv : Option ℚ := none
  w : Option ℚ := none
  sunsetUTC : Option ℤ := none
  moonsetUTC : Option ℤ := none
  bestTimeUTC : Option ℤ := none
deriving DecidableEq

/-- The Odeh limit polynomial of step 10 of getVisibility:
-0.1018 W^3 + 0.7319 W^2 - 6.3226 W + 7.1651. -/
def odehLimit (w : ℚ) : ℚ := -0.1018 * w ^ 3 + 0.7319 * w ^ 2 - 6.3226 * w + 7.1651

/-- The zone mapping of step 11 of getVisibility. -/
def classifyV (v : ℚ) : VisCode :=
  if 5.65 ≤ v then .EV
  else if 2 ≤ v then .VP
  else if -0.96 ≤ v then .VO
  else .NV

/-- Rank of the four optical tiers, lowest first, for stating monotonicity
of the classification. -/
def codeRank : VisCode → ℕ
  | .NV => 0
  | .VO => 1
  | .VP => 2
  | .EV => 3
  | .U => 0
  | .I => 0

/-- The conjunction-rule test of step 5 of getVisibility: a supplied
conjunction time strictly after sunset triggers the rule when no next
sunrise is found within two days or the conjunction precedes that sunrise. -/
def conjRuleTriggered (eph : Ephemeris) (sunsetTime : ℤ) (conjunctionTime : Option ℤ) : Bool :=
  match conjunctionTime with
  | none => false
  | some ct =>
    if sunsetTime < ct then
      match eph.searchSunrise sunsetTime 2 with
      | none => true
      | some r => decide (ct < r)
    else false

/-- The sunset search start used by getVisibility and getNightWindow: local
noon of the input calendar date under the longitude-based timezone. -/
def visSearchStart (date : ℤ) (lonN : ℚ) : ℤ :=
  date - getLongitudeBasedTimezone lonN * 3600000 + 12 * 3600000

/-- The best observation time of step 6 of getVisibility:
sunset + (4/9) Lag, truncated to whole milliseconds by the Date
constructor. -/
def visBestTime (s m : ℤ) : ℤ :=
  ratTrunc ((s : ℚ) + ((m - s : ℤ) : ℚ) / 60000 * (4 / 9) * 60000)

/-- The V value computed in steps 6 to 10 of getVisibility: ARCV minus the
Odeh limit of the crescent width, everything evaluated at best time. -/
def visValue (eph : Ephemeris) (s m : ℤ) : ℚ :=
  (eph.moonAltitude (visBestTime s m) - eph.sunAltitude (visBestTime s m))
    - odehLimit (eph.crescentW (visBestTime s m))

/-- Embeds getVisibility from astronomy.js.  The lat argument only enters
through the observer inside the oracle; lon enters the timezone and the
normalisation exactly as in the source. -/
def getVisibility (eph : Ephemeris) (date : ℤ) (lat lon : ℚ) (conjunctionTime : Option ℤ) :
    VisResult :=
  let lonN := normalizeLon lon
  match eph.searchSunset (visSearchStart date lonN) with
  | none => { code := .U, reason := some .noSunsetFound }
  | some s =>
    match eph.searchMoonset s with
    | none => { code := .U, reason := some .noMoonsetFound }
    | some m =>
      let lagMinutes : ℚ := ((m - s : ℤ) : ℚ) / 60000
      if lagMinutes ≤ 0 then
        { code := .I, reason := some .moonSetsBeforeOrAtSunset, lag := some lagMinutes,
          sunsetUTC := some s, moonsetUTC := some m }
      else if conjRuleTriggered eph s conjunctionTime then
        { code := .I, reason := some .conjunctionOccursAfterSunset, conjunctionTriggered := true,
          lag := some lagMinutes, sunsetUTC := some s, moonsetUTC := some m }
      else
        let v := visValue eph s m
        { code := classifyV v, value := some v, lag := some lagMinutes,
          arcv := some (eph.moonAltitude (visBestTime s m) - eph.sunAltitude (visBestTime s m)),
          w := some (eph.crescentW (visBestTime s m)),
          sunsetUTC := some s, moonsetUTC := some m, bestTimeUTC := some (visBestTime s m) }

/-- The night window record returned by getNightWindow. -/
structure NightWindow where
  nightStart : ℤ
  nightEnd : ℤ
  lat : ℚ
  lon : ℚ
deriving DecidableEq

/-- Embeds getAstronomicalTwilightEnd from astronomy.js: the -18 degree
crossing after sunset, rejected when it lands after the next sunrise. -/
def getAstronomicalTwilightEnd (eph : Ephemeris) (sunsetTime : ℤ) : Option ℤ :=
  match eph.searchTwilightEnd sunsetTime with
  | none => none
  | some t =>
    match eph.searchSunrise sunsetTime 1 with
    | some r => if r < t then none else some t
    | none => some t

/-- The part of getNightWindow below the sunset computation: twilight end,
else next sunrise, else nothing; nights longer than 20 hours are replaced by
a synthetic 12-hour window. -/
def nightWindowFromSunset (eph : Ephemeris) (lat lonN : ℚ) (sunsetTime : ℤ) :
    Option NightWindow :=
  match getAstronomicalTwilightEnd eph sunsetTime with
  | some t => some ⟨sunsetTime, t, lat, lonN⟩
  | none =>
    match eph.searchSunrise sunsetTime 1 with
    | none => none
    | some r =>
      let nightDuration : ℚ := ((r - sunsetTime : ℤ) : ℚ) / 3600000
      if 20 < nightDuration then some ⟨sunsetTime, sunsetTime + 12 * 3600000, lat, lonN⟩
      else some ⟨sunsetTime, r, lat, lonN⟩

/-- Embeds getNightWindow from astronomy.js.  The conjunctionTime parameter
is accepted and unused, as in the source. -/
def getNightWindow (eph : Ephemeris) (lat lon : ℚ) (date : ℤ) (conjunctionTime : Option ℤ)
    (knownSunset : Option ℤ) : Option NightWindow :=
  let lonN := normalizeLon lon
  match knownSunset with
  | some s => nightWindowFromSunset eph lat lonN s
  | none =>
    match eph.searchSunset (visSearchStart date lonN) with
    | none => none
    | some s => nightWindowFromSunset eph lat lonN s

/-- An argument cell of calculateSharedNight: a record whose nightStart and
nightEnd fields may each be missing, wrapped in Option to model a null
argument. -/
structure CellTimes where
  nightStart : Option ℤ
  nightEnd : Option ℤ
deriving DecidableEq

/-- The result record of calculateSharedNight. -/
structure SharedNightResult where
  sharedNight : Bool
  overlapDuration : ℚ
deriving DecidableEq

/-- True when the argument is a non-null cell carrying both night fields,
the condition under which calculateSharedNight passes its null guard. -/
def fullWindow : Option CellTimes → Bool
  | some c => c.nightStart.isSome && c.nightEnd.isSome
  | none => false

/-- Embeds calculateSharedNight from astronomy.js. -/
def calculateSharedNight (cellA cellB : Option CellTimes) : SharedNightResult :=
  match cellA, cellB with
  | some ⟨some aS, some aE⟩, some ⟨some bS, some bE⟩ =>
    let overlapStart := max aS bS
    let overlapEnd := min aE bE
    if overlapStart < overlapEnd then ⟨true, ((overlapEnd - overlapStart : ℤ) : ℚ) / 60000⟩
    else ⟨false, 0⟩
  | _, _ => ⟨false, 0⟩

/-- Number of iterations of a loop for (x = start; x <= stop; x += step)
with positive step, over exact rational arithmetic. -/
def stepCount (start stop step : ℚ) : ℕ :=
  if start ≤ stop then (⌊(stop - start) / step⌋).toNat + 1 else 0

/-- The value sequence of a loop for (x = start; x <= stop; x += step). -/
def ratRange (start stop step : ℚ) : List ℚ :=
  (List.range (stepCount start stop step)).map (fun i : ℕ => start + step * (i : ℚ))

/-- A matching cell pushed by the search_shared branch of the worker. -/
structure MatchCell where
  lat : ℚ
  lon : ℚ
  classification : VisCode
  overlapDuration : ℚ
deriving DecidableEq

/-- Embeds the search_shared branch of the worker onmessage handler in
astronomy.js for one latitude band: scan latitudes from latStart to latEnd
and longitudes from -179 to 179 in 2 degree steps; for each cell compute the
night window (skip when undefined), skip when the windows do not overlap,
skip when the user night start precedes the cell night start, then run the
visibility check and keep cells classified VO, VP or EV.  The oracle family
eph gives the astronomy engine at each grid observer. -/
def searchShared (eph : ℚ → ℚ → Ephemeris) (date : ℤ) (userNightStart userNightEnd : ℤ)
    (conjunctionTime : Option ℤ) (latStart latEnd : ℚ) : List MatchCell :=
  (ratRange latStart latEnd 2).flatMap (fun lat =>
    (ratRange (-179) 179 2).filterMap (fun lon =>
      match getNightWindow (eph lat lon) lat lon date conjunctionTime none with
      | none => none
      | some nw =>
        let overlapStart := max userNightStart nw.nightStart
        let overlapEnd := min userNightEnd nw.nightEnd
        if overlapEnd ≤ overlapStart then none
        else if userNightStart < nw.nightStart then none
        else
          let vis := getVisibility (eph lat lon) date lat lon conjunctionTime
          if vis.code = .VO ∨ vis.code = .VP ∨ vis.code = .EV then
            some ⟨lat, lon, vis.code, ((overlapEnd - overlapStart : ℤ) : ℚ) / 60000⟩
          else none))

/-- Band start of worker k in checkSharedNightVisibility of lunarCalendar.js:
minLat + k * (120 / workerCount). -/
def latStartQ (workerCount k : ℕ) : ℚ := -60 + (k : ℚ) * (120 / (workerCount : ℚ))

/-- Band end of worker k: min(60, latStart + 120 / workerCount). -/
def latEndQ (workerCount k : ℕ) : ℚ :=
  min 60 (latStartQ workerCount k + 120 / (workerCount : ℚ))

/-- Embeds the fan-out of checkSharedNightVisibility: every worker scans its
band and the coordinator concatenates the per-band match lists in worker
order (results.flat()). -/
def searchSharedAll (eph : ℚ → ℚ → Ephemeris) (date : ℤ) (userNightStart userNightEnd : ℤ)
    (conjunctionTime : Option ℤ) (workerCount : ℕ) : List MatchCell :=
  (List.range workerCount).flatMap (fun k =>
    searchShared eph date userNightStart userNightEnd conjunctionTime
      (latStartQ workerCount k) (latEndQ workerCount k))

/-- The latitude sequence of the full-grid worker mode:
for (lat = -59; lat <= 59; lat += 2). -/
def fullGridLats : List ℚ := ratRange (-59) 59 2

/-- The two ways findNight1WithProgress can succeed. -/
inductive Night1Method where
  | direct
  | sharedNight
deriving DecidableEq

/-- The success payload of findNight1WithProgress. -/
structure Night1Result where
  night1Date : ℤ
  method : Night1Method
deriving DecidableEq

/-- The day loop of findNight1WithProgress: the remaining iteration count is
the first argument; each iteration polls the cancellation flag (the natural
number counter indexes successive polls across the whole request), floors
the candidate date to UTC midnight, tries the direct check then the
shared-night check, and otherwise advances one day.  The oracles direct and
shared take the conjunction date and the candidate day and give the outcome
of checkDirectVisibility and checkSharedNightVisibility. -/
def findNight1Go (direct shared : ℤ → ℤ → Bool) (cancel : ℕ → Bool) (conjunctionDate : ℤ) :
    ℕ → ℤ → ℕ → Option Night1Result × ℕ
  | 0, _, c => (none, c)
  | fuel + 1, currentDate, c =>
    if cancel c then (none, c + 1)
    else
      let d0 := floorDay currentDate
      if direct conjunctionDate d0 then (some ⟨d0, .direct⟩, c + 1)
      else if shared conjunctionDate d0 then (some ⟨d0, .sharedNight⟩, c + 1)
      else findNight1Go direct shared cancel conjunctionDate fuel (d0 + dayMs) (c + 1)

/-- MAX_ITERATIONS of findNight1WithProgress. -/
def maxIterations : ℕ := 35

/-- Embeds findNight1WithProgress: at most maxIterations day iterations
starting from the conjunction date. -/
def findNight1 (direct shared : ℤ → ℤ → Bool) (cancel : ℕ → Bool) (conjunctionDate : ℤ)
    (c : ℕ) : Option Night1Result × ℕ :=
  findNight1Go direct shared cancel conjunctionDate maxIterations conjunctionDate c

/-- Embeds checkDirectVisibility from lunarCalendar.js: a location is
directly visible when getVisibility classifies VO, VP or EV. -/
def checkDirectVisibility (eph : Ephemeris) (date : ℤ) (lat lon : ℚ)
    (conjunctionTime : Option ℤ) : Bool :=
  let code := (getVisibility eph date lat lon conjunctionTime).code
  (code == .VO) || (code == .VP) || (code == .EV)

/-- One tuple accumulated by Pass 1 of calculateLunarCalendar. -/
structure MonthInfo where
  conjunction : ℤ
  night1Date : ℤ
  nextConjunction : ℤ
deriving DecidableEq

/-- One day entry of a month record (the derived date string is omitted). -/
structure DayRec where
  nightNumber : ℕ
  gregorianDate : ℤ
deriving DecidableEq

/-- One month record assembled by Pass 2 (the derived month name is
omitted). -/
structure MonthRec where
  conjunctionDate : ℤ
  night1Date : ℤ
  nextConjunctionDate : ℤ
  days : List DayRec
deriving DecidableEq

/-- The day-generation loop of Pass 2 of calculateLunarCalendar:
while (dayDate < monthEndDate) push the day and advance one day. -/
def generateDays (dayDate monthEndDate : ℤ) (nightNumber : ℕ) : List DayRec :=
  if dayDate < monthEndDate then
    ⟨nightNumber, dayDate⟩ :: generateDays (dayDate + dayMs) monthEndDate (nightNumber + 1)
  else []
termination_by (monthEndDate - dayDate).toNat
decreasing_by
  simp only [dayMs] at *
  omega

/-- Builds one month record from a Pass 1 tuple and the chosen month end
boundary, running the day-generation loop from the Night 1 date. -/
def mkMonthRec (m : MonthInfo) (monthEndDate : ℤ) : MonthRec :=
  ⟨m.conjunction, m.night1Date, m.nextConjunction, generateDays m.night1Date monthEndDate 1⟩

/-- The pure content of Pass 2 of calculateLunarCalendar: every month except
the last ends just before the next month Night 1 date; the last month ends
at its own next conjunction. -/
def pass2Months : List MonthInfo → List MonthRec
  | [] => []
  | [m] => [mkMonthRec m m.nextConjunction]
  | m :: m2 :: rest => mkMonthRec m m2.night1Date :: pass2Months (m2 :: rest)

/-- Oracle for the collaborators of calculateLunarCalendar: the two
conjunction searches of the astronomy engine, and the outcomes of the direct
and shared-night visibility checks (conjunction date, candidate day). -/
structure CalOracle where
  prevConj : ℤ → Option ℤ
  nextConj : ℤ → Option ℤ
  direct : ℤ → ℤ → Bool
  shared : ℤ → ℤ → Bool

/-- Pass 1 of calculateLunarCalendar: per month, poll cancellation, search
the next conjunction (stop on failure), run the Night 1 search (on failure
poll cancellation once more: cancelled gives no result at all, otherwise
stop with the months found so far), search the following conjunction (stop
on failure), accumulate the tuple and continue from that conjunction.
Returns none exactly when a cancellation branch was taken, paired with the
next unused poll index. -/
def pass1Go (o : CalOracle) (cancel : ℕ → Bool) :
    ℕ → ℤ → ℕ → Option (List MonthInfo) × ℕ
  | 0, _, c => (some [], c)
  | n + 1, passDate, c =>
    if cancel c then (none, c + 1)
    else
      match o.nextConj passDate with
      | none => (some [], c + 1)
      | some conj =>
        match findNight1 o.direct o.shared cancel conj (c + 1) with
        | (none, c2) => if cancel c2 then (none, c2 + 1) else (some [], c2 + 1)
        | (some n1, c2) =>
          match o.nextConj (conj + dayMs) with
          | none => (some [], c2)
          | some nextC =>
            match pass1Go o cancel n nextC c2 with
            | (none, c3) => (none, c3)
            | (some rest, c3) => (some (⟨conj, n1.night1Date, nextC⟩ :: rest), c3)

/-- Pass 2 of calculateLunarCalendar with its per-month cancellation poll;
when no poll interrupts it, it builds exactly pass2Months of its input. -/
def pass2Go (cancel : ℕ → Bool) : List MonthInfo → ℕ → Option (List MonthRec) × ℕ
  | [], c => (some [], c)
  | [m], c =>
    if cancel c then (none, c + 1) else (some [mkMonthRec m m.nextConjunction], c + 1)
  | m :: m2 :: rest, c =>
    if cancel c then (none, c + 1)
    else
      match pass2Go cancel (m2 :: rest) (c + 1) with
      | (none, c2) => (none, c2)
      | (some ms, c2) => (some (mkMonthRec m m2.night1Date :: ms), c2)

/-- The calendar value returned by calculateLunarCalendar (location and
generation time omitted). -/
structure CalendarResult where
  months : List MonthRec
deriving DecidableEq

/-- The body of calculateLunarCalendar in part_000: find the previous
conjunction (returning null on failure), run Pass 1 from it, then Pass 2. -/
def calcRun (o : CalOracle) (cancel : ℕ → Bool) (startDate : ℤ) (numMonths : ℕ) :
    Option CalendarResult × ℕ :=
  match o.prevConj startDate with
  | none => (none, 0)
  | some firstConjunction =>
    match pass1Go o cancel numMonths firstConjunction 0 with
    | (none, c1) => (none, c1)
    | (some monthData, c1) =>
      match pass2Go cancel monthData c1 with
      | (none, c2) => (none, c2)
      | (some months, c2) => (some ⟨months⟩, c2)

/-- Observable outcome of one calculateLunarCalendar request: the returned
value (none models the null return), the number of cancellation polls
performed, and whether the worker pool was terminated. -/
structure CalcOutcome where
  result : Option CalendarResult
  polls : ℕ
  workersTerminated : Bool
deriving DecidableEq

/-- Embeds calculateLunarCalendar of part_000 including its try/finally
shape: whatever the body does, the finally block terminates every worker of
the pool created for the request, so workersTerminated holds on every exit
path. -/
def calculateLunarCalendar (o : CalOracle) (cancel : ℕ → Bool) (startDate : ℤ)
    (numMonths : ℕ) : CalcOutcome :=
  let r := calcRun o cancel startDate numMonths
  { result := r.1, polls := r.2, workersTerminated := true }

/-- The month-end boundary chosen by Pass 2 for the month at index i: the
next month Night 1 date when a next month exists, else the own next
conjunction. -/
def p2end (l : List MonthInfo) (i : ℕ) : ℤ :=
  if i + 1 < l.length then (l.getD (i + 1) ⟨0, 0, 0⟩).night1Date
  else (l.getD i ⟨0, 0, 0⟩).nextConjunction

/-- Concrete ephemeris oracle used by the evaluation witnesses: sunset at
time 0, moonset ten minutes later, twilight end one hour after sunset,
sunrise two hours after any search start, and geometry giving a large
positive V value. -/
def ephW : Ephemeris where
  searchSunset := fun _ => some 0
  searchMoonset := fun s => some (s + 600000)
  searchSunrise := fun s _ => some (s + 7200000)
  searchTwilightEnd := fun s => some (s + 3600000)
  moonAltitude := fun _ => 20
  sunAltitude := fun _ => 0
  crescentW := fun _ => 1

/-- Concrete grid oracle family: every grid cell behaves like ephW. -/
def ephGridW : ℚ → ℚ → Ephemeris := fun _ _ => ephW

/-- Cancellation predicate that never fires. -/
def cFalse : ℕ → Bool := fun _ => false

/-- Monotone cancellation predicate that fires from the second poll on. -/
def cW : ℕ → Bool := fun i => decide (1 ≤ i)

/-- Concrete calendar oracle: conjunctions three days apart and immediate
direct visibility, giving short months. -/
def oW : CalOracle where
  prevConj := fun _ => some 0
  nextConj := fun d => some (d + 3 * dayMs)
  direct := fun _ _ => true
  shared := fun _ _ => false

/-- Concrete calendar oracle whose previous-conjunction search fails. -/
def oCE : CalOracle where
  prevConj := fun _ => none
  nextConj := fun _ => none
  direct := fun _ _ => false
  shared := fun _ _ => false

/-- The calendar value produced by the concrete oracle oW without
cancellation, used by the boundary witness. -/
def calW : CalendarResult := ((calculateLunarCalendar oW cFalse 0 2).result).getD ⟨[]⟩

/-- Membership in the value sequence of an upward counting loop with
positive step. -/
theorem mem_ratRange {start stop step x : ℚ} (hstep : 0 < step) :
    x ∈ ratRange start stop step ↔ ∃ i : ℕ, x = start + step * i ∧ x ≤ stop := by
  constructor
  · intro hx
    unfold ratRange stepCount at hx
    simp only [List.mem_map, List.mem_range] at hx
    obtain ⟨i, hi, rfl⟩ := hx
    refine ⟨i, rfl, ?_⟩
    split at hi
    case isTrue hss =>
      have hfl : (0 : ℤ) ≤ ⌊(stop - start) / step⌋ :=
        Int.floor_nonneg.mpr (div_nonneg (by linarith) hstep.le)
      have hile : (i : ℤ) ≤ ⌊(stop - start) / step⌋ := by omega
      have hq : (i : ℚ) ≤ (stop - start) / step := by
        calc (i : ℚ) = ((i : ℤ) : ℚ) := by push_cast; ring
        _ ≤ (⌊(stop - start) / step⌋ : ℚ) := by exact_mod_cast hile
        _ ≤ (stop - start) / step := Int.floor_le _
      have h2 : (i : ℚ) * step ≤ stop - start := (le_div_iff hstep).mp hq
      nlinarith [h2]
    case isFalse hss => omega
  · rintro ⟨i, rfl, hle⟩
    unfold ratRange stepCount
    simp only [List.mem_map, List.mem_range]
    refine ⟨i, ?_, rfl⟩
    have hzero : (0 : ℚ) ≤ step * i := mul_nonneg hstep.le (Nat.cast_nonneg i)
    have hss : start ≤ stop := by linarith
    rw [if_pos hss]
    have h1 : (i : ℚ) ≤ (stop - start) / step := by
      rw [le_div_iff hstep]
      nlinarith
    have h2 : (i : ℤ) ≤ ⌊(stop - start) / step⌋ := Int.le_floor.mpr (by exact_mod_cast h1)
    have hfl : (0 : ℤ) ≤ ⌊(stop - start) / step⌋ :=
      Int.floor_nonneg.mpr (div_nonneg (by linarith) hstep.le)
    omega

/-- Unfolding of the day loop when a day remains. -/
theorem generateDays_of_lt {d e : ℤ} (h : d < e) (nn : ℕ) :
    generateDays d e nn = ⟨nn, d⟩ :: generateDays (d + dayMs) e (nn + 1) := by
  rw [generateDays]
  simp [h]

/-- Unfolding of the day loop at or past the boundary. -/
theorem generateDays_of_ge {d e : ℤ} (h : e ≤ d) (nn : ℕ) :
    generateDays d e nn = [] := by
  rw [generateDays]
  simp [not_lt.mpr h]

/-- Characterisation of the entries of the day loop: exactly the one-day
steps from the start date that lie strictly before the boundary, with
consecutive night numbers. -/
theorem mem_generateDays (d e : ℤ) (nn : ℕ) (x : DayRec) :
    x ∈ generateDays d e nn ↔
      ∃ j : ℕ, x = ⟨nn + j, d + (j : ℤ) * dayMs⟩ ∧ d + (j : ℤ) * dayMs < e := by
  induction d, e, nn using generateDays.induct with
  | case1 d e nn h ih =>
    rw [generateDays_of_lt h]
    simp only [List.mem_cons, ih]
    constructor
    · rintro (rfl | ⟨j, rfl, hj⟩)
      · exact ⟨0, by simp, by simpa using h⟩
      · refine ⟨j + 1, ?_, ?_⟩
        · congr 1
          · omega
          · push_cast
            ring
        · push_cast at hj ⊢
          linarith
    · rintro ⟨j, rfl, hj⟩
      cases j with
      | zero => left; simp
      | succ j =>
        right
        refine ⟨j, ?_, ?_⟩
        · congr 1
          · omega
          · push_cast
            ring
        · push_cast at hj ⊢
          linarith
  | case2 d e nn h =>
    rw [generateDays_of_ge (not_lt.mp h)]
    simp only [List.not_mem_nil, false_iff, not_exists, not_and]
    intro j rfl
    have hd : (0 : ℤ) ≤ (j : ℤ) * dayMs := by
      have : (0 : ℤ) ≤ (j : ℤ) := Int.ofNat_nonneg j
      simp only [dayMs]
      positivity
    omega

/-- The head of a nonempty day loop is the start date with the start night
number. -/
theorem generateDays_head {d e : ℤ} (h : d < e) (nn : ℕ) :
    (generateDays d e nn).head? = some ⟨nn, d⟩ := by
  rw [generateDays_of_lt h]
  rfl

/-- Pass 2 produces one record per input tuple. -/
theorem pass2Months_length : ∀ l : List MonthInfo, (pass2Months l).length = l.length := by
  intro l
  induction l with
  | nil => rfl
  | cons m tail ih =>
    cases tail with
    | nil => rfl
    | cons m2 rest =>
      simp only [pass2Months, List.length_cons] at ih ⊢
      omega


/-- The record at index i of Pass 2 is built from the tuple at index i with
the Pass 2 boundary: the next tuple Night 1 date except for the last tuple,
which uses its own next conjunction. -/
theorem pass2Months_getD : ∀ (l : List MonthInfo) (i : ℕ), i < l.length →
    (pass2Months l).getD i ⟨0, 0, 0, []⟩ = mkMonthRec (l.getD i ⟨0, 0, 0⟩) (p2end l i) := by
  intro l
  induction l with
  | nil => intro i h; simp at h
  | cons m tail ih =>
    intro i h
    cases tail with
    | nil =>
      have hi0 : i = 0 := by simpa using Nat.lt_one_iff.mp (by simpa using h)
      subst hi0
      simp [pass2Months, p2end, mkMonthRec]
    | cons m2 rest =>
      cases i with
      | zero =>
        simp only [pass2Months, List.getD_cons_zero, p2end, List.length_cons]
        rw [if_pos (by omega)]
        simp [List.getD_cons_succ]
      | succ i =>
        have h2 : i < (m2 :: rest).length := by simpa using h
        simp only [pass2Months, List.getD_cons_succ]
        rw [ih i h2]
        congr 1
        simp only [p2end, List.getD_cons_succ, List.length_cons]
        rcases Nat.lt_or_ge (i + 1) (rest.length + 1) with hc | hc
        · rw [if_pos (by omega), if_pos (by omega)]
        · rw [if_neg (by omega), if_neg (by omega)]

/-- A successful Pass 2 run builds exactly the pure Pass 2 value. -/
theorem pass2Go_some (cancel : ℕ → Bool) :
    ∀ (l : List MonthInfo) (c : ℕ) (ms : List MonthRec) (c2 : ℕ),
      pass2Go cancel l c = (some ms, c2) → ms = pass2Months l := by
  intro l
  induction l with
  | nil =>
    intro c ms c2 h
    simp only [pass2Go, Prod.mk.injEq, Option.some.injEq] at h
    simp [pass2Months, ← h.1]
  | cons m tail ih =>
    cases tail with
    | nil =>
      intro c ms c2 h
      simp only [pass2Go] at h
      rcases hcan : cancel c with _ | _
      · rw [hcan] at h
        simp only [if_neg Bool.false_ne_true, Prod.mk.injEq, Option.some.injEq] at h
        simp [pass2Months, ← h.1]
      · rw [hcan] at h
        simp at h
    | cons m2 rest =>
      intro c ms c2 h
      simp only [pass2Go] at h
      rcases hcan : cancel c with _ | _
      · rw [hcan] at h
        simp only [if_neg Bool.false_ne_true] at h
        rcases hrec : pass2Go cancel (m2 :: rest) (c + 1) with ⟨r, cr⟩
        rw [hrec] at h
        cases r with
        | none => simp at h
        | some ms2 =>
          simp only [Prod.mk.injEq, Option.some.injEq] at h
          rw [← h.1, pass2Months]
          rw [ih (c + 1) ms2 cr hrec]
      · rw [hcan] at h
        simp at h

/-- A monotone cancellation flag that is false at b is false at every
earlier poll. -/
theorem cancel_mono_false {cancel : ℕ → Bool}
    (hm : ∀ i j, i ≤ j → cancel i = true → cancel j = true)
    {a b : ℕ} (hab : a ≤ b) (hb : cancel b = false) : cancel a = false := by
  cases h : cancel a with
  | false => rfl
  | true =>
    have := hm a b hab h
    rw [hb] at this
    exact absurd this (by simp)

/-- The poll counter never decreases across the Night 1 day loop. -/
theorem findNight1Go_le (direct shared : ℤ → ℤ → Bool) (cancel : ℕ → Bool) (conj : ℤ) :
    ∀ (fuel : ℕ) (d : ℤ) (c : ℕ),
      c ≤ (findNight1Go direct shared cancel conj fuel d c).2 := by
  intro fuel
  induction fuel with
  | zero => intro d c; simp [findNight1Go]
  | succ fuel ih =>
    intro d c
    simp only [findNight1Go]
    split
    · simp
    · split
      · simp
      · split
        · simp
        · exact le_trans (by omega) (ih _ (c + 1))

/-- When the Night 1 day loop succeeds, every poll it performed saw a false
cancellation flag. -/
theorem findNight1Go_some_polls (direct shared : ℤ → ℤ → Bool) (cancel : ℕ → Bool) (conj : ℤ) :
    ∀ (fuel : ℕ) (d : ℤ) (c : ℕ) (res : Night1Result) (c2 : ℕ),
      findNight1Go direct shared cancel conj fuel d c = (some res, c2) →
      ∀ i, c ≤ i → i < c2 → cancel i = false := by
  intro fuel
  induction fuel with
  | zero =>
    intro d c res c2 h
    simp [findNight1Go] at h
  | succ fuel ih =>
    intro d c res c2 h i hci hic2
    simp only [findNight1Go] at h
    rcases hcan : cancel c with _ | _
    · rw [hcan] at h
      simp only [if_neg Bool.false_ne_true] at h
      rcases hdir : direct conj (floorDay d) with _ | _
      · rw [hdir] at h
        simp only [if_neg Bool.false_ne_true] at h
        rcases hsh : shared conj (floorDay d) with _ | _
        · rw [hsh] at h
          simp only [if_neg Bool.false_ne_true] at h
          rcases Nat.eq_or_lt_of_le hci with rfl | hlt
          · exact hcan
          · exact ih _ (c + 1) res c2 h i (by omega) hic2
        · rw [hsh] at h
          simp only [if_pos rfl, Prod.mk.injEq] at h
          obtain ⟨h1, h2⟩ := h
          have : i = c := by omega
          subst this
          exact hcan
      · rw [hdir] at h
        simp only [if_pos rfl, Prod.mk.injEq] at h
        obtain ⟨h1, h2⟩ := h
        have : i = c := by omega
        subst this
        exact hcan
    · rw [hcan] at h
      simp at h

/-- Counter growth across the whole Night 1 search. -/
theorem findNight1_le (direct shared : ℤ → ℤ → Bool) (cancel : ℕ → Bool) (conj : ℤ) (c : ℕ) :
    c ≤ (findNight1 direct shared cancel conj c).2 :=
  findNight1Go_le direct shared cancel conj maxIterations conj c

/-- Poll values across a successful whole Night 1 search. -/
theorem findNight1_some_polls (direct shared : ℤ → ℤ → Bool) (cancel : ℕ → Bool) (conj : ℤ)
    (c : ℕ) (res : Night1Result) (c2 : ℕ)
    (h : findNight1 direct shared cancel conj c = (some res, c2)) :
    ∀ i, c ≤ i → i < c2 → cancel i = false :=
  findNight1Go_some_polls direct shared cancel conj maxIterations conj c res c2 h

/-- The poll counter never decreases across Pass 1. -/
theorem pass1Go_le (o : CalOracle) (cancel : ℕ → Bool) :
    ∀ (n : ℕ) (p : ℤ) (c : ℕ), c ≤ (pass1Go o cancel n p c).2 := by
  intro n
  induction n with
  | zero => intro p c; simp [pass1Go]
  | succ n ih =>
    intro p c
    simp only [pass1Go]
    rcases hcan : cancel c with _ | _
    · simp only [if_neg Bool.false_ne_true]
      rcases hnc : o.nextConj p with _ | conj
      · simp
      · try dsimp only
        have hfle := findNight1_le o.direct o.shared cancel conj (c + 1)
        rcases hfn : findNight1 o.direct o.shared cancel conj (c + 1) with ⟨r, cf⟩
        rw [hfn] at hfle
        simp only at hfle
        cases r with
        | none =>
          dsimp only
          rcases hcan2 : cancel cf with _ | _ <;> simp <;> omega
        | some n1 =>
          try dsimp only
          rcases hnc2 : o.nextConj (conj + dayMs) with _ | nextC
          · simp
            omega
          · try dsimp only
            have hrec := ih nextC cf
            rcases hr : pass1Go o cancel n nextC cf with ⟨r3, c3⟩
            rw [hr] at hrec
            simp only at hrec
            cases r3 <;> simp <;> omega
    · simp

/-- A Pass 1 run that returns no result stopped at a poll that saw a true
cancellation flag. -/
theorem pass1Go_none_polls (o : CalOracle) (cancel : ℕ → Bool) :
    ∀ (n : ℕ) (p : ℤ) (c c2 : ℕ),
      pass1Go o cancel n p c = (none, c2) → ∃ i, c ≤ i ∧ i < c2 ∧ cancel i = true := by
  intro n
  induction n with
  | zero =>
    intro p c c2 h
    simp [pass1Go] at h
  | succ n ih =>
    intro p c c2 h
    simp only [pass1Go] at h
    rcases hcan : cancel c with _ | _
    · rw [hcan] at h
      simp only [if_neg Bool.false_ne_true] at h
      rcases hnc : o.nextConj p with _ | conj
      · rw [hnc] at h
        simp at h
      · rw [hnc] at h
        dsimp only at h
        have hfle := findNight1_le o.direct o.shared cancel conj (c + 1)
        rcases hfn : findNight1 o.direct o.shared cancel conj (c + 1) with ⟨r, cf⟩
        rw [hfn] at hfle h
        simp only at hfle
        cases r with
        | none =>
          dsimp only at h
          rcases hcan2 : cancel cf with _ | _
          · rw [hcan2] at h
            simp at h
          · rw [hcan2] at h
            simp at h
            exact ⟨cf, by omega, by omega, hcan2⟩
        | some n1 =>
          dsimp only at h
          rcases hnc2 : o.nextConj (conj + dayMs) with _ | nextC
          · rw [hnc2] at h
            simp at h
          · rw [hnc2] at h
            dsimp only at h
            rcases hr : pass1Go o cancel n nextC cf with ⟨r3, c3⟩
            rw [hr] at h
            cases r3 with
            | none =>
              simp at h
              obtain ⟨i, hi1, hi2, hi3⟩ := ih nextC cf c3 hr
              exact ⟨i, by omega, by omega, hi3⟩
            | some rest =>
              simp at h
    · rw [hcan] at h
      simp at h
      exact ⟨c, le_refl c, by omega, hcan⟩

/-- Across a Pass 1 run that produces month data, every poll performed saw a
false flag, provided the cancellation flag is monotone. -/
theorem pass1Go_some_polls (o : CalOracle) (cancel : ℕ → Bool)
    (hm : ∀ i j, i ≤ j → cancel i = true → cancel j = true) :
    ∀ (n : ℕ) (p : ℤ) (c : ℕ) (md : List MonthInfo) (c2 : ℕ),
      pass1Go o cancel n p c = (some md, c2) → ∀ i, c ≤ i → i < c2 → cancel i = false := by
  intro n
  induction n with
  | zero =>
    intro p c md c2 h i hci hic
    simp only [pass1Go, Prod.mk.injEq, Option.some.injEq] at h
    omega
  | succ n ih =>
    intro p c md c2 h i hci hic
    simp only [pass1Go] at h
    rcases hcan : cancel c with _ | _
    · rw [hcan] at h
      simp only [if_neg Bool.false_ne_true] at h
      rcases hnc : o.nextConj p with _ | conj
      · rw [hnc] at h
        simp at h
        obtain ⟨h1, h2⟩ := h
        have : i = c := by omega
        subst this
        exact hcan
      · rw [hnc] at h
        dsimp only at h
        have hfle := findNight1_le o.direct o.shared cancel conj (c + 1)
        rcases hfn : findNight1 o.direct o.shared cancel conj (c + 1) with ⟨r, cf⟩
        rw [hfn] at hfle h
        simp only at hfle
        cases r with
        | none =>
          dsimp only at h
          rcases hcan2 : cancel cf with _ | _
          · rw [hcan2] at h
            simp at h
            obtain ⟨h1, h2⟩ := h
            exact cancel_mono_false hm (by omega) hcan2
          · rw [hcan2] at h
            simp at h
        | some n1 =>
          dsimp only at h
          rcases hnc2 : o.nextConj (conj + dayMs) with _ | nextC
          · rw [hnc2] at h
            simp at h
            obtain ⟨h1, h2⟩ := h
            rcases Nat.eq_or_lt_of_le hci with rfl | hlt
            · exact hcan
            · exact findNight1_some_polls o.direct o.shared cancel conj (c + 1) n1 cf hfn i
                (by omega) (by omega)
          · rw [hnc2] at h
            dsimp only at h
            have hrle := pass1Go_le o cancel n nextC cf
            rcases hr : pass1Go o cancel n nextC cf with ⟨r3, c3⟩
            rw [hr] at hrle h
            simp only at hrle
            cases r3 with
            | none =>
              simp at h
            | some rest =>
              simp at h
              obtain ⟨h1, h2⟩ := h
              rcases Nat.eq_or_lt_of_le hci with rfl | hlt
              · exact hcan
              · rcases Nat.lt_or_ge i cf with hicf | hicf
                · exact findNight1_some_polls o.direct o.shared cancel conj (c + 1) n1 cf hfn i
                    (by omega) hicf
                · exact ih nextC cf rest c3 hr i hicf (by omega)
    · rw [hcan] at h
      simp at h

/-- The poll counter never decreases across Pass 2. -/
theorem pass2Go_le (cancel : ℕ → Bool) :
    ∀ (l : List MonthInfo) (c : ℕ), c ≤ (pass2Go cancel l c).2 := by
  intro l
  induction l with
  | nil => intro c; simp [pass2Go]
  | cons m tail ih =>
    cases tail with
    | nil =>
      intro c
      simp only [pass2Go]
      split <;> simp
    | cons m2 rest =>
      intro c
      simp only [pass2Go]
      rcases hcan : cancel c with _ | _
      · simp only [if_neg Bool.false_ne_true]
        have hrec := ih (c + 1)
        rcases hr : pass2Go cancel (m2 :: rest) (c + 1) with ⟨r, c2⟩
        rw [hr] at hrec
        simp only at hrec
        cases r <;> simp <;> omega
      · simp

/-- A Pass 2 run that returns no result stopped at a poll that saw a true
cancellation flag. -/
theorem pass2Go_none_polls (cancel : ℕ → Bool) :
    ∀ (l : List MonthInfo) (c c2 : ℕ),
      pass2Go cancel l c = (none, c2) → ∃ i, c ≤ i ∧ i < c2 ∧ cancel i = true := by
  intro l
  induction l with
  | nil =>
    intro c c2 h
    simp [pass2Go] at h
  | cons m tail ih =>
    cases tail with
    | nil =>
      intro c c2 h
      simp only [pass2Go] at h
      rcases hcan : cancel c with _ | _
      · rw [hcan] at h
        simp at h
      · rw [hcan] at h
        simp at h
        exact ⟨c, le_refl c, by omega, hcan⟩
    | cons m2 rest =>
      intro c c2 h
      simp only [pass2Go] at h
      rcases hcan : cancel c with _ | _
      · rw [hcan] at h
        simp only [if_neg Bool.false_ne_true] at h
        rcases hr : pass2Go cancel (m2 :: rest) (c + 1) with ⟨r, cr⟩
        rw [hr] at h
        cases r with
        | none =>
          simp at h
          obtain ⟨i, hi1, hi2, hi3⟩ := ih (c + 1) cr hr
          exact ⟨i, by omega, by omega, hi3⟩
        | some ms =>
          simp at h
      · rw [hcan] at h
        simp at h
        exact ⟨c, le_refl c, by omega, hcan⟩

/-- Across a Pass 2 run that produces month records, every poll performed
saw a false flag. -/
theorem pass2Go_some_polls (cancel : ℕ → Bool) :
    ∀ (l : List MonthInfo) (c : ℕ) (ms : List MonthRec) (c2 : ℕ),
      pass2Go cancel l c = (some ms, c2) → ∀ i, c ≤ i → i < c2 → cancel i = false := by
  intro l
  induction l with
  | nil =>
    intro c ms c2 h i hci hic
    simp only [pass2Go, Prod.mk.injEq, Option.some.injEq] at h
    omega
  | cons m tail ih =>
    cases tail with
    | nil =>
      intro c ms c2 h i hci hic
      simp only [pass2Go] at h
      rcases hcan : cancel c with _ | _
      · rw [hcan] at h
        simp at h
        obtain ⟨h1, h2⟩ := h
        have : i = c := by omega
        subst this
        exact hcan
      · rw [hcan] at h
        simp at h
    | cons m2 rest =>
      intro c ms c2 h i hci hic
      simp only [pass2Go] at h
      rcases hcan : cancel c with _ | _
      · rw [hcan] at h
        simp only [if_neg Bool.false_ne_true] at h
        rcases hr : pass2Go cancel (m2 :: rest) (c + 1) with ⟨r, cr⟩
        rw [hr] at h
        cases r with
        | none =>
          simp at h
        | some ms2 =>
          simp at h
          obtain ⟨h1, h2⟩ := h
          rcases Nat.eq_or_lt_of_le hci with rfl | hlt
          · exact hcan
          · exact ih (c + 1) ms2 cr hr i (by omega) (by omega)
      · rw [hcan] at h
        simp at h

/-- Unfolding of getVisibility on the conjunction-triggered path. -/
theorem getVisibility_conj_eq (eph : Ephemeris) (date : ℤ) (lat lon : ℚ) (ct : Option ℤ)
    (s m : ℤ)
    (hs : eph.searchSunset (visSearchStart date (normalizeLon lon)) = some s)
    (hmo : eph.searchMoonset s = some m)
    (hlag : s < m)
    (htrig : conjRuleTriggered eph s ct = true) :
    getVisibility eph date lat lon ct =
      { code := .I, reason := some .conjunctionOccursAfterSunset, conjunctionTriggered := true,
        lag := some (((m - s : ℤ) : ℚ) / 60000), sunsetUTC := some s, moonsetUTC := some m } := by
  have hlagpos : ¬ (((m - s : ℤ) : ℚ) / 60000 ≤ 0) := by
    rw [not_le]
    have h0 : (0 : ℚ) < ((m - s : ℤ) : ℚ) := by exact_mod_cast Int.sub_pos.mpr hlag
    positivity
  simp only [getVisibility]
  rw [hs]
  dsimp only
  rw [hmo]
  dsimp only
  rw [if_neg hlagpos, if_pos htrig]

/-- Unfolding of getVisibility on the classification path. -/
theorem getVisibility_classify_eq (eph : Ephemeris) (date : ℤ) (lat lon : ℚ) (ct : Option ℤ)
    (s m : ℤ)
    (hs : eph.searchSunset (visSearchStart date (normalizeLon lon)) = some s)
    (hmo : eph.searchMoonset s = some m)
    (hlag : s < m)
    (htrig : conjRuleTriggered eph s ct = false) :
    getVisibility eph date lat lon ct =
      { code := classifyV (visValue eph s m), value := some (visValue eph s m),
        lag := some (((m - s : ℤ) : ℚ) / 60000),
        arcv := some (eph.moonAltitude (visBestTime s m) - eph.sunAltitude (visBestTime s m)),
        w := some (eph.crescentW (visBestTime s m)),
        sunsetUTC := some s, moonsetUTC := some m,
        bestTimeUTC := some (visBestTime s m) } := by
  have hlagpos : ¬ (((m - s : ℤ) : ℚ) / 60000 ≤ 0) := by
    rw [not_le]
    have h0 : (0 : ℚ) < ((m - s : ℤ) : ℚ) := by exact_mod_cast Int.sub_pos.mpr hlag
    positivity
  simp only [getVisibility]
  rw [hs]
  dsimp only
  rw [hmo]
  dsimp only
  rw [if_neg hlagpos, htrig]
  simp

/-- C5: conjunction rule precedence.  Whenever getVisibility finds a sunset
and a moonset with positive lag and a supplied conjunction time falls
strictly between that sunset and the following sunrise, the result is
Impossible with conjunctionTriggered set and the conjunction reason,
regardless of the geometric fields of the ephemeris (the theorem quantifies
over every ephemeris, including ones whose altitudes and crescent width
would otherwise classify EasilyVisible). -/
theorem conjunction_rule_precedence_c5 (eph : Ephemeris) (date : ℤ) (lat lon : ℚ)
    (s m r ct : ℤ)
    (hs : eph.searchSunset (visSearchStart date (normalizeLon lon)) = some s)
    (hmo : eph.searchMoonset s = some m)
    (hlag : s < m)
    (hr : eph.searchSunrise s 2 = some r)
    (hct1 : s < ct) (hct2 : ct < r) :
    (getVisibility eph date lat lon (some ct)).code = .I
    ∧ (getVisibility eph date lat lon (some ct)).conjunctionTriggered = true
    ∧ (getVisibility eph date lat lon (some ct)).reason
        = some .conjunctionOccursAfterSunset := by
  have htrig : conjRuleTriggered eph s (some ct) = true := by
    unfold conjRuleTriggered
    dsimp only
    rw [if_pos hct1, hr]
    simpa using hct2
  rw [getVisibility_conj_eq eph date lat lon (some ct) s m hs hmo hlag htrig]
  exact ⟨rfl, rfl, rfl⟩

/-- C5 witness: evaluation of the theorem on the concrete oracle ephW (whose
geometry otherwise classifies EasilyVisible) with a conjunction one hour
after the sunset at time 0 and sunrise two hours after it. -/
theorem conjunction_rule_precedence_c5_witness :
    (getVisibility ephW 0 10 20 (some 3600000)).code = .I
    ∧ (getVisibility ephW 0 10 20 (some 3600000)).conjunctionTriggered = true
    ∧ (getVisibility ephW 0 10 20 (some 3600000)).reason
        = some .conjunctionOccursAfterSunset :=
  conjunction_rule_precedence_c5 ephW 0 10 20 0 600000 7200000 3600000
    (by decide) (by decide) (by decide) (by decide) (by decide) (by decide)

/-- The top tier of the zone mapping. -/
theorem classifyV_EV_iff (v : ℚ) : classifyV v = .EV ↔ 5.65 ≤ v := by
  constructor
  · intro hx
    by_contra hv
    unfold classifyV at hx
    rw [if_neg hv] at hx
    split_ifs at hx <;> simp at hx
  · intro hv
    unfold classifyV
    rw [if_pos hv]

/-- The second tier of the zone mapping. -/
theorem classifyV_VP_iff (v : ℚ) : classifyV v = .VP ↔ 2 ≤ v ∧ v < 5.65 := by
  constructor
  · intro hx
    unfold classifyV at hx
    split_ifs at hx with h1 h2 h3 <;> simp at hx
    exact ⟨h2, not_le.mp h1⟩
  · rintro ⟨hv1, hv2⟩
    unfold classifyV
    rw [if_neg (not_le.mpr hv2), if_pos hv1]

/-- The third tier of the zone mapping. -/
theorem classifyV_VO_iff (v : ℚ) : classifyV v = .VO ↔ -0.96 ≤ v ∧ v < 2 := by
  constructor
  · intro hx
    unfold classifyV at hx
    split_ifs at hx with h1 h2 h3 <;> simp at hx
    exact ⟨h3, not_le.mp h2⟩
  · rintro ⟨hv1, hv2⟩
    unfold classifyV
    have h5 : ¬ (5.65 ≤ v) := by
      rw [not_le]
      calc v < 2 := hv2
      _ < 5.65 := by norm_num
    rw [if_neg h5, if_neg (not_le.mpr hv2), if_pos hv1]

/-- The bottom tier of the zone mapping. -/
theorem classifyV_NV_iff (v : ℚ) : classifyV v = .NV ↔ v < -0.96 := by
  constructor
  · intro hx
    unfold classifyV at hx
    split_ifs at hx with h1 h2 h3 <;> simp at hx
    exact not_le.mp h3
  · intro hv
    unfold classifyV
    have h5 : ¬ (5.65 ≤ v) := by rw [not_le]; linarith
    have h2 : ¬ ((2 : ℚ) ≤ v) := by rw [not_le]; linarith
    rw [if_neg h5, if_neg h2, if_neg (not_le.mpr hv)]

/-- The zone mapping is non-decreasing in V. -/
theorem classifyV_mono (v1 v2 : ℚ) (h : v1 ≤ v2) :
    codeRank (classifyV v1) ≤ codeRank (classifyV v2) := by
  unfold classifyV
  split_ifs <;> simp [codeRank] <;> linarith

/-- C6: Odeh classification thresholds.  Whenever getVisibility reaches the
V computation (sunset and moonset found, lag positive, conjunction rule not
triggered), the returned value is the V of the run and the returned
classification is EasilyVisible exactly above 5.65, VisibleUnderPerfect
between 2 inclusive and 5.65 exclusive, VisibleWithOpticalAid between -0.96
inclusive and 2 exclusive, NotVisible below -0.96, with every boundary in
the higher tier; and the zone mapping is non-decreasing in V. -/
theorem odeh_thresholds_c6 (eph : Ephemeris) (date : ℤ) (lat lon : ℚ) (ct : Option ℤ)
    (s m : ℤ)
    (hs : eph.searchSunset (visSearchStart date (normalizeLon lon)) = some s)
    (hmo : eph.searchMoonset s = some m)
    (hlag : s < m)
    (htrig : conjRuleTriggered eph s ct = false) :
    (getVisibility eph date lat lon ct).value = some (visValue eph s m)
    ∧ ((getVisibility eph date lat lon ct).code = .EV ↔ 5.65 ≤ visValue eph s m)
    ∧ ((getVisibility eph date lat lon ct).code = .VP
        ↔ 2 ≤ visValue eph s m ∧ visValue eph s m < 5.65)
    ∧ ((getVisibility eph date lat lon ct).code = .VO
        ↔ -0.96 ≤ visValue eph s m ∧ visValue eph s m < 2)
    ∧ ((getVisibility eph date lat lon ct).code = .NV ↔ visValue eph s m < -0.96)
    ∧ (∀ v1 v2 : ℚ, v1 ≤ v2 → codeRank (classifyV v1) ≤ codeRank (classifyV v2)) := by
  rw [getVisibility_classify_eq eph date lat lon ct s m hs hmo hlag htrig]
  exact ⟨rfl, classifyV_EV_iff _, classifyV_VP_iff _, classifyV_VO_iff _,
    classifyV_NV_iff _, classifyV_mono⟩

/-- C6 witness: evaluation on the concrete oracle ephW, whose run has
ARCV 20, W 1 and hence a V value in the EasilyVisible tier. -/
theorem odeh_thresholds_c6_witness :
    (getVisibility ephW 0 10 20 none).value = some (visValue ephW 0 600000)
    ∧ ((getVisibility ephW 0 10 20 none).code = .EV ↔ 5.65 ≤ visValue ephW 0 600000)
    ∧ ((getVisibility ephW 0 10 20 none).code = .VP
        ↔ 2 ≤ visValue ephW 0 600000 ∧ visValue ephW 0 600000 < 5.65)
    ∧ ((getVisibility ephW 0 10 20 none).code = .VO
        ↔ -0.96 ≤ visValue ephW 0 600000 ∧ visValue ephW 0 600000 < 2)
    ∧ ((getVisibility ephW 0 10 20 none).code = .NV ↔ visValue ephW 0 600000 < -0.96)
    ∧ (∀ v1 v2 : ℚ, v1 ≤ v2 → codeRank (classifyV v1) ≤ codeRank (classifyV v2)) :=
  odeh_thresholds_c6 ephW 0 10 20 none 0 600000 (by decide) (by decide) (by decide) (by decide)

/-- C7: shared-night symmetry and formula.  The function is commutative in
its two cells; on two full windows it reports an overlap exactly when the
larger nightStart precedes the smaller nightEnd, the reported duration is
the length of that interval in minutes when it overlaps and zero otherwise,
and the duration is never negative. -/
theorem shared_night_symmetry_c7 :
    (∀ a b : Option CellTimes, calculateSharedNight a b = calculateSharedNight b a)
    ∧ (∀ aS aE bS bE : ℤ,
        ((calculateSharedNight (some ⟨some aS, some aE⟩)
            (some ⟨some bS, some bE⟩)).sharedNight = true ↔ max aS bS < min aE bE)
        ∧ (calculateSharedNight (some ⟨some aS, some aE⟩)
            (some ⟨some bS, some bE⟩)).overlapDuration
            = if max aS bS < min aE bE then ((min aE bE - max aS bS : ℤ) : ℚ) / 60000 else 0)
    ∧ (∀ a b : Option CellTimes, 0 ≤ (calculateSharedNight a b).overlapDuration) := by
  refine ⟨?_, ?_, ?_⟩
  · intro a b
    rcases a with _ | ⟨_ | aS, _ | aE⟩ <;> rcases b with _ | ⟨_ | bS, _ | bE⟩ <;>
        simp only [calculateSharedNight] <;> try rfl
    rw [max_comm bS aS, min_comm bE aE]
  · intro aS aE bS bE
    constructor
    · simp only [calculateSharedNight]
      split_ifs with h <;> simp [h]
    · simp only [calculateSharedNight]
      split_ifs with h <;> rfl
  · intro a b
    rcases a with _ | ⟨_ | aS, _ | aE⟩ <;> rcases b with _ | ⟨_ | bS, _ | bE⟩ <;>
        simp only [calculateSharedNight] <;> try norm_num
    split_ifs with h
    · have hle : (0 : ℤ) ≤ min aE bE - max aS bS := by omega
      have hc : (0 : ℚ) ≤ ((min aE bE - max aS bS : ℤ) : ℚ) := by exact_mod_cast hle
      simpa using div_nonneg hc (by norm_num : (0 : ℚ) ≤ 60000)
    · norm_num

/-- C10: null tolerance of the shared-night function.  Whenever either
argument is null or lacks one of its night fields, the function returns the
no-overlap result rather than failing. -/
theorem shared_night_null_guard_c10 (a b : Option CellTimes)
    (h : fullWindow a = false ∨ fullWindow b = false) :
    calculateSharedNight a b = ⟨false, 0⟩ := by
  rcases a with _ | ⟨_ | aS, _ | aE⟩ <;> rcases b with _ | ⟨_ | bS, _ | bE⟩ <;>
      try rfl
  rcases h with h | h <;> simp [fullWindow] at h

/-- C10 witness: a null first argument together with a full second window. -/
theorem shared_night_null_guard_c10_witness :
    fullWindow (none : Option CellTimes) = false
    ∧ calculateSharedNight none (some ⟨some 0, some 60000⟩) = ⟨false, 0⟩ :=
  ⟨by decide, shared_night_null_guard_c10 none (some ⟨some 0, some 60000⟩)
    (Or.inl (by decide))⟩

/-- C8: night-window ordering invariant.  Under the two well-formedness
facts of the ephemeris search primitives actually used by getNightWindow
(a twilight crossing found after a sunset lies strictly after it, and a
sunrise found after a sunset lies strictly after it), every non-null window
returned by getNightWindow has nightEnd strictly after nightStart, on all
three construction paths: twilight end, sunrise fallback, and the synthetic
twelve-hour window substituted for nights longer than twenty hours. -/
theorem night_window_ordering_c8 (eph : Ephemeris) (lat lon : ℚ) (date : ℤ)
    (ct knownSunset : Option ℤ)
    (htw : ∀ s t, eph.searchTwilightEnd s = some t → s < t)
    (hsr : ∀ s w r, eph.searchSunrise s w = some r → s < r)
    (w : NightWindow) (hw : getNightWindow eph lat lon date ct knownSunset = some w) :
    w.nightStart < w.nightEnd := by
  have hbuild : ∀ s : ℤ, nightWindowFromSunset eph lat (normalizeLon lon) s = some w →
      w.nightStart < w.nightEnd := by
    intro s hb
    unfold nightWindowFromSunset at hb
    rcases hte : getAstronomicalTwilightEnd eph s with _ | t
    · rw [hte] at hb
      dsimp only at hb
      rcases hri : eph.searchSunrise s 1 with _ | r
      · rw [hri] at hb
        simp at hb
      · rw [hri] at hb
        dsimp only at hb
        split_ifs at hb with hdur
        · simp only [Option.some.injEq] at hb
          rw [← hb]
          simp only []
          omega
        · simp only [Option.some.injEq] at hb
          rw [← hb]
          exact hsr s 1 r hri
    · rw [hte] at hb
      simp only [Option.some.injEq] at hb
      have hst : s < t := by
        unfold getAstronomicalTwilightEnd at hte
        rcases hsw : eph.searchTwilightEnd s with _ | t2
        · rw [hsw] at hte
          simp at hte
        · rw [hsw] at hte
          dsimp only at hte
          have h2 := htw s t2 hsw
          rcases hri : eph.searchSunrise s 1 with _ | r
          · rw [hri] at hte
            simp only [Option.some.injEq] at hte
            omega
          · rw [hri] at hte
            dsimp only at hte
            split_ifs at hte <;> simp at hte <;> omega
      rw [← hb]
      exact hst
  unfold getNightWindow at hw
  rcases knownSunset with _ | s
  · dsimp only at hw
    rcases hss : eph.searchSunset (visSearchStart date (normalizeLon lon)) with _ | s
    · rw [hss] at hw
      simp at hw
    · rw [hss] at hw
      dsimp only at hw
      exact hbuild s hw
  · dsimp only at hw
    exact hbuild s hw

/-- C8 witness: evaluation of the invariant on the concrete oracle ephW,
whose windows run from sunset to the twilight end one hour later. -/
theorem night_window_ordering_c8_witness :
    ∃ w : NightWindow, getNightWindow ephW 10 20 0 none none = some w
      ∧ w.nightStart < w.nightEnd := by
  refine ⟨⟨0, 3600000, 10, normalizeLon 20⟩, rfl, ?_⟩
  exact night_window_ordering_c8 ephW 10 20 0 none none
    (fun s t h => by simp [ephW] at h; omega)
    (fun s wd r h => by simp [ephW] at h; omega)
    ⟨0, 3600000, 10, normalizeLon 20⟩ rfl

/-- Flooring a midnight plus one day is a fixpoint. -/
theorem floorDay_add_day (d : ℤ) : floorDay (floorDay d + dayMs) = floorDay d + dayMs := by
  unfold floorDay
  have hne : dayMs ≠ 0 := by simp [dayMs]
  have h1 : Int.fdiv d dayMs * dayMs + dayMs = (Int.fdiv d dayMs + 1) * dayMs := by ring
  rw [h1, Int.mul_fdiv_cancel _ hne]

/-- Exhaustion of the Night 1 day loop: when neither check succeeds on any
scanned day, the loop returns no result and performs at most one poll per
remaining iteration. -/
theorem findNight1Go_exhaust (direct shared : ℤ → ℤ → Bool) (cancel : ℕ → Bool) (conj : ℤ) :
    ∀ (fuel : ℕ) (d : ℤ) (c : ℕ),
      (∀ k : ℕ, k < fuel → direct conj (floorDay d + k * dayMs) = false
          ∧ shared conj (floorDay d + k * dayMs) = false) →
      (findNight1Go direct shared cancel conj fuel d c).1 = none
        ∧ (findNight1Go direct shared cancel conj fuel d c).2 ≤ c + fuel := by
  intro fuel
  induction fuel with
  | zero =>
    intro d c hvis
    simp [findNight1Go]
  | succ fuel ih =>
    intro d c hvis
    have h0 := hvis 0 (by omega)
    rw [show floorDay d + (0 : ℕ) * dayMs = floorDay d by push_cast; ring] at h0
    simp only [findNight1Go]
    rcases hcan : cancel c with _ | _
    · simp only [if_neg Bool.false_ne_true]
      rw [h0.1, h0.2]
      simp only [if_neg Bool.false_ne_true]
      have hnext : ∀ k : ℕ, k < fuel →
          direct conj (floorDay (floorDay d + dayMs) + k * dayMs) = false
          ∧ shared conj (floorDay (floorDay d + dayMs) + k * dayMs) = false := by
        intro k hk
        rw [floorDay_add_day]
        have := hvis (k + 1) (by omega)
        rw [show floorDay d + ((k : ℕ) + 1 : ℕ) * dayMs
            = floorDay d + dayMs + k * dayMs by push_cast; ring] at this
        exact this
      have hrec := ih (floorDay d + dayMs) (c + 1) hnext
      exact ⟨hrec.1, by omega⟩
    · simp

/-- C9: Night 1 exhaustion and termination.  The day loop of
findNight1WithProgress runs at most maxIterations (35) iterations, polling
once per iteration, and when no scanned day is visible directly or by
shared-night inheritance it returns no Night 1 result at all (the source
returns null, reported upward as a hard failure) rather than looping or
fabricating a date. -/
theorem night1_exhaustion_c9 (direct shared : ℤ → ℤ → Bool) (cancel : ℕ → Bool)
    (conj : ℤ) (c : ℕ)
    (hvis : ∀ k : ℕ, k < maxIterations →
        direct conj (floorDay conj + k * dayMs) = false
        ∧ shared conj (floorDay conj + k * dayMs) = false) :
    (findNight1 direct shared cancel conj c).1 = none
    ∧ (findNight1 direct shared cancel conj c).2 ≤ c + maxIterations :=
  findNight1Go_exhaust direct shared cancel conj maxIterations conj c hvis

/-- C9 witness: oracles that never report visibility, evaluated from an
arbitrary conjunction time. -/
theorem night1_exhaustion_c9_witness :
    (findNight1 (fun _ _ => false) (fun _ _ => false) cFalse 5 0).1 = none
    ∧ (findNight1 (fun _ _ => false) (fun _ _ => false) cFalse 5 0).2 ≤ 0 + maxIterations :=
  night1_exhaustion_c9 (fun _ _ => false) (fun _ _ => false) cFalse 5 0
    (fun _ _ => ⟨rfl, rfl⟩)

/-- Null characterisation of the calculateLunarCalendar body: under a
monotone cancellation flag, the body returns null exactly when the initial
previous-conjunction search fails or some performed poll saw a true flag. -/
theorem calcRun_none_iff (o : CalOracle) (cancel : ℕ → Bool) (startDate : ℤ) (numMonths : ℕ)
    (hm : ∀ i j, i ≤ j → cancel i = true → cancel j = true) :
    (calcRun o cancel startDate numMonths).1 = none
    ↔ (o.prevConj startDate = none
        ∨ ∃ i, i < (calcRun o cancel startDate numMonths).2 ∧ cancel i = true) := by
  unfold calcRun
  rcases hp : o.prevConj startDate with _ | fc
  · simp
  · dsimp only
    have h1le := pass1Go_le o cancel numMonths fc 0
    rcases h1 : pass1Go o cancel numMonths fc 0 with ⟨r1, c1⟩
    rw [h1] at h1le
    simp only at h1le
    cases r1 with
    | none =>
      dsimp only
      refine iff_of_true rfl (Or.inr ?_)
      obtain ⟨i, hi0, hi1, hi3⟩ := pass1Go_none_polls o cancel numMonths fc 0 c1 h1
      exact ⟨i, hi1, hi3⟩
    | some md =>
      dsimp only
      have h2le := pass2Go_le cancel md c1
      rcases h2 : pass2Go cancel md c1 with ⟨r2, c2⟩
      rw [h2] at h2le
      simp only at h2le
      cases r2 with
      | none =>
        dsimp only
        refine iff_of_true rfl (Or.inr ?_)
        obtain ⟨i, hi0, hi1, hi3⟩ := pass2Go_none_polls cancel md c1 c2 h2
        exact ⟨i, hi1, hi3⟩
      | some ms =>
        dsimp only
        refine iff_of_false (by simp) ?_
        rintro (hnone | ⟨i, hic2, hctrue⟩)
        · exact Option.noConfusion hnone
        · rcases Nat.lt_or_ge i c1 with hic1 | hic1
          · have := pass1Go_some_polls o cancel hm numMonths fc 0 md c1 h1 i (by omega) hic1
            rw [hctrue] at this
            exact Bool.noConfusion this
          · have := pass2Go_some_polls cancel md c1 ms c2 h2 i hic1 hic2
            rw [hctrue] at this
            exact Bool.noConfusion this

/-- C3 counterexample: the claim that calculateLunarCalendar returns null
only when the cancellation predicate became true is false on the code: when
the initial previous-conjunction search fails, the function returns null
although the cancellation predicate never returned true at any poll. -/
theorem cancellation_contract_c3_counterexample :
    (calculateLunarCalendar oCE cFalse 0 2).result = none
    ∧ (∀ i, cFalse i = false) :=
  ⟨rfl, fun _ => rfl⟩

/-- C3 amended: under a monotone cancellation flag (once true, it stays
true, as with the cancellation flags the callers supply),
calculateLunarCalendar returns null exactly when the initial
previous-conjunction search fails or cancellation was observed at one of
its polling points, and on every exit path the worker pool of the request
is terminated. -/
theorem cancellation_contract_c3_amended (o : CalOracle) (cancel : ℕ → Bool)
    (startDate : ℤ) (numMonths : ℕ)
    (hm : ∀ i j, i ≤ j → cancel i = true → cancel j = true) :
    ((calculateLunarCalendar o cancel startDate numMonths).result = none
      ↔ (o.prevConj startDate = none
          ∨ ∃ i, i < (calculateLunarCalendar o cancel startDate numMonths).polls
              ∧ cancel i = true))
    ∧ (calculateLunarCalendar o cancel startDate numMonths).workersTerminated = true :=
  ⟨calcRun_none_iff o cancel startDate numMonths hm, rfl⟩

/-- C3 witness: the amended contract evaluated on the concrete oracle oW
with the monotone flag cW that fires from the second poll on; the run is
cancelled inside the first Night 1 search and returns null. -/
theorem cancellation_contract_c3_witness :
    ((calculateLunarCalendar oW cW 0 2).result = none
      ↔ (oW.prevConj 0 = none
          ∨ ∃ i, i < (calculateLunarCalendar oW cW 0 2).polls ∧ cW i = true))
    ∧ (calculateLunarCalendar oW cW 0 2).workersTerminated = true :=
  cancellation_contract_c3_amended oW cW 0 2
    (fun i j hij hi => by
      simp only [cW, decide_eq_true_eq] at hi ⊢
      omega)

/-- The months of any calendar produced by calculateLunarCalendar are
exactly Pass 2 applied to the Pass 1 month data. -/
theorem calc_months_pass2 (o : CalOracle) (cancel : ℕ → Bool) (startDate : ℤ)
    (numMonths : ℕ) (cal : CalendarResult)
    (h : (calculateLunarCalendar o cancel startDate numMonths).result = some cal) :
    ∃ md : List MonthInfo, cal.months = pass2Months md := by
  unfold calculateLunarCalendar calcRun at h
  rcases hp : o.prevConj startDate with _ | fc
  · rw [hp] at h
    simp at h
  · rw [hp] at h
    dsimp only at h
    rcases h1 : pass1Go o cancel numMonths fc 0 with ⟨r1, c1⟩
    rw [h1] at h
    cases r1 with
    | none =>
      dsimp only at h
      simp at h
    | some md =>
      dsimp only at h
      rcases h2 : pass2Go cancel md c1 with ⟨r2, c2⟩
      rw [h2] at h
      cases r2 with
      | none =>
        dsimp only at h
        simp at h
      | some ms =>
        dsimp only at h
        simp only [Option.some.injEq] at h
        have hms := pass2Go_some cancel md c1 ms c2 h2
        refine ⟨md, ?_⟩
        rw [← h]
        exact hms

/-- C2: two-pass month boundary.  For every calendar with at least two
months produced by calculateLunarCalendar whose recorded Night 1 dates
increase toward each boundary (the situation produced by real, ordered
conjunctions), each month day sequence starts exactly at its own Night 1
date with night number 1 and contains exactly the one-day steps from that
date up to but excluding the boundary: the next month Night 1 date for
every month but the last, and the own next conjunction for the last month.
In particular the last day of a month strictly precedes the next month
Night 1 date, and the next month first day equals its own Night 1 date, so
consecutive months leave no gap and no overlap. -/
theorem two_pass_boundary_c2 (o : CalOracle) (cancel : ℕ → Bool) (startDate : ℤ)
    (numMonths : ℕ) (cal : CalendarResult)
    (hres : (calculateLunarCalendar o cancel startDate numMonths).result = some cal)
    (hk : 2 ≤ cal.months.length)
    (hinc : ∀ i, i < cal.months.length →
        (cal.months.getD i ⟨0, 0, 0, []⟩).night1Date
          < (if i + 1 < cal.months.length
              then (cal.months.getD (i + 1) ⟨0, 0, 0, []⟩).night1Date
              else (cal.months.getD i ⟨0, 0, 0, []⟩).nextConjunctionDate)) :
    ∀ i, i < cal.months.length →
      ((cal.months.getD i ⟨0, 0, 0, []⟩).days.head?
          = some ⟨1, (cal.months.getD i ⟨0, 0, 0, []⟩).night1Date⟩)
      ∧ (∀ d : DayRec, d ∈ (cal.months.getD i ⟨0, 0, 0, []⟩).days ↔
          ∃ j : ℕ, d = ⟨1 + j, (cal.months.getD i ⟨0, 0, 0, []⟩).night1Date + (j : ℤ) * dayMs⟩
            ∧ (cal.months.getD i ⟨0, 0, 0, []⟩).night1Date + (j : ℤ) * dayMs
                < (if i + 1 < cal.months.length
                    then (cal.months.getD (i + 1) ⟨0, 0, 0, []⟩).night1Date
                    else (cal.months.getD i ⟨0, 0, 0, []⟩).nextConjunctionDate)) := by
  obtain ⟨md, hmd⟩ := calc_months_pass2 o cancel startDate numMonths cal hres
  have hlen : cal.months.length = md.length := by
    rw [hmd]
    exact pass2Months_length md
  intro i hi
  have hi_md : i < md.length := by omega
  have hgetD : cal.months.getD i ⟨0, 0, 0, []⟩
      = mkMonthRec (md.getD i ⟨0, 0, 0⟩) (p2end md i) := by
    rw [hmd]
    exact pass2Months_getD md i hi_md
  have hend : (if i + 1 < cal.months.length
      then (cal.months.getD (i + 1) ⟨0, 0, 0, []⟩).night1Date
      else (cal.months.getD i ⟨0, 0, 0, []⟩).nextConjunctionDate) = p2end md i := by
    rw [p2end]
    by_cases hc : i + 1 < cal.months.length
    · have hc2 : i + 1 < md.length := by omega
      rw [if_pos hc, if_pos hc2, hmd, pass2Months_getD md (i + 1) hc2]
      simp [mkMonthRec]
    · have hc2 : ¬ (i + 1 < md.length) := by omega
      rw [if_neg hc, if_neg hc2, hgetD]
      simp [mkMonthRec]
  have hlt : (md.getD i ⟨0, 0, 0⟩).night1Date < p2end md i := by
    have hx := hinc i hi
    rw [hend, hgetD] at hx
    exact hx
  constructor
  · rw [hgetD]
    exact generateDays_head hlt 1
  · intro d
    rw [hend, hgetD]
    exact mem_generateDays (md.getD i ⟨0, 0, 0⟩).night1Date (p2end md i) 1 d

/-- C2 witness: the two-month calendar produced by the concrete oracle oW
without cancellation. -/
theorem two_pass_boundary_c2_witness :
    (calW.months.getD 0 ⟨0, 0, 0, []⟩).days.head?
      = some ⟨1, (calW.months.getD 0 ⟨0, 0, 0, []⟩).night1Date⟩ :=
  (two_pass_boundary_c2 oW cFalse 0 2 calW rfl (by decide) (by decide) 0 (by decide)).1

/-- C1: targeted-search acceptance rule.  A cell of the scanned lattice
appears in the match list of the search_shared worker branch exactly when
its night window is defined, the window overlaps the target window (the
larger nightStart before the smaller nightEnd), the target nightStart is at
or after the cell nightStart, and the Odeh classification of the cell is
VO, VP or EV. -/
theorem targeted_search_acceptance_c1 (eph : ℚ → ℚ → Ephemeris) (date : ℤ)
    (userNightStart userNightEnd : ℤ) (ct : Option ℤ) (latStart latEnd lat lon : ℚ)
    (hlat : lat ∈ ratRange latStart latEnd 2)
    (hlon : lon ∈ ratRange (-179) 179 2) :
    (∃ c ∈ searchShared eph date userNightStart userNightEnd ct latStart latEnd,
        c.lat = lat ∧ c.lon = lon)
    ↔ ∃ nw, getNightWindow (eph lat lon) lat lon date ct none = some nw
        ∧ max userNightStart nw.nightStart < min userNightEnd nw.nightEnd
        ∧ nw.nightStart ≤ userNightStart
        ∧ ((getVisibility (eph lat lon) date lat lon ct).code = .VO
            ∨ (getVisibility (eph lat lon) date lat lon ct).code = .VP
            ∨ (getVisibility (eph lat lon) date lat lon ct).code = .EV) := by
  constructor
  · rintro ⟨c, hc, hclat, hclon⟩
    simp only [searchShared, List.mem_flatMap, List.mem_filterMap] at hc
    obtain ⟨lat0, hlat0, lon0, hlon0, hf⟩ := hc
    rcases hnw : getNightWindow (eph lat0 lon0) lat0 lon0 date ct none with _ | nw
    · rw [hnw] at hf
      simp at hf
    · rw [hnw] at hf
      dsimp only at hf
      by_cases h1 : min userNightEnd nw.nightEnd ≤ max userNightStart nw.nightStart
      · rw [if_pos h1] at hf
        exact absurd hf (by simp)
      · rw [if_neg h1] at hf
        by_cases h2 : userNightStart < nw.nightStart
        · rw [if_pos h2] at hf
          exact absurd hf (by simp)
        · rw [if_neg h2] at hf
          by_cases h3 : (getVisibility (eph lat0 lon0) date lat0 lon0 ct).code = .VO
              ∨ (getVisibility (eph lat0 lon0) date lat0 lon0 ct).code = .VP
              ∨ (getVisibility (eph lat0 lon0) date lat0 lon0 ct).code = .EV
          · rw [if_pos h3] at hf
            simp only [Option.some.injEq] at hf
            rw [← hf] at hclat hclon
            simp only at hclat hclon
            subst hclat
            subst hclon
            exact ⟨nw, hnw, by omega, by omega, h3⟩
          · rw [if_neg h3] at hf
            exact absurd hf (by simp)
  · rintro ⟨nw, hnw, hoverlap, horder, hcode⟩
    refine ⟨⟨lat, lon, (getVisibility (eph lat lon) date lat lon ct).code,
        ((min userNightEnd nw.nightEnd - max userNightStart nw.nightStart : ℤ) : ℚ)
          / 60000⟩, ?_, rfl, rfl⟩
    simp only [searchShared, List.mem_flatMap, List.mem_filterMap]
    refine ⟨lat, hlat, lon, hlon, ?_⟩
    rw [hnw]
    dsimp only
    rw [if_neg (by omega), if_neg (by omega), if_pos hcode]

/-- C1 witness: the acceptance rule evaluated at the cell at latitude -60
and longitude -179 of the band from -60 to -30, on the uniform oracle
ephGridW with the target window from 0 to one hour. -/
theorem targeted_search_acceptance_c1_witness :
    (∃ c ∈ searchShared ephGridW 0 0 3600000 none (-60) (-30),
        c.lat = -60 ∧ c.lon = -179)
    ↔ ∃ nw, getNightWindow (ephGridW (-60) (-179)) (-60) (-179) 0 none none = some nw
        ∧ max 0 nw.nightStart < min 3600000 nw.nightEnd
        ∧ nw.nightStart ≤ 0
        ∧ ((getVisibility (ephGridW (-60) (-179)) 0 (-60) (-179) none).code = .VO
            ∨ (getVisibility (ephGridW (-60) (-179)) 0 (-60) (-179) none).code = .VP
            ∨ (getVisibility (ephGridW (-60) (-179)) 0 (-60) (-179) none).code = .EV) :=
  targeted_search_acceptance_c1 ephGridW 0 0 3600000 none (-60) (-30) (-60) (-179)
    ((mem_ratRange (by norm_num)).mpr ⟨0, by norm_num, by norm_num⟩)
    ((mem_ratRange (by norm_num)).mpr ⟨0, by norm_num, by norm_num⟩)

/-- Constructive membership in a band scan: a lattice cell satisfying all
four acceptance conditions contributes its match record to the band result. -/
theorem searchShared_mem_intro (eph : ℚ → ℚ → Ephemeris) (date : ℤ)
    (userNightStart userNightEnd : ℤ) (ct : Option ℤ) (latStart latEnd lat lon : ℚ)
    (nw : NightWindow)
    (hlat : lat ∈ ratRange latStart latEnd 2) (hlon : lon ∈ ratRange (-179) 179 2)
    (hnw : getNightWindow (eph lat lon) lat lon date ct none = some nw)
    (hoverlap : max userNightStart nw.nightStart < min userNightEnd nw.nightEnd)
    (horder : nw.nightStart ≤ userNightStart)
    (hcode : (getVisibility (eph lat lon) date lat lon ct).code = .VO
        ∨ (getVisibility (eph lat lon) date lat lon ct).code = .VP
        ∨ (getVisibility (eph lat lon) date lat lon ct).code = .EV) :
    (⟨lat, lon, (getVisibility (eph lat lon) date lat lon ct).code,
        ((min userNightEnd nw.nightEnd - max userNightStart nw.nightStart : ℤ) : ℚ)
          / 60000⟩ : MatchCell)
      ∈ searchShared eph date userNightStart userNightEnd ct latStart latEnd := by
  simp only [searchShared, List.mem_flatMap, List.mem_filterMap]
  refine ⟨lat, hlat, lon, hlon, ?_⟩
  rw [hnw]
  dsimp only
  rw [if_neg (by omega), if_neg (by omega), if_pos hcode]

/-- The code of the uniform witness oracle at any cell is EasilyVisible:
its run has ARCV 20 and crescent width 1, so V is about 18.5. -/
theorem ephW_code_EV (date : ℤ) (lat lon : ℚ) :
    (getVisibility ephW date lat lon none).code = .EV := by
  rw [getVisibility_classify_eq ephW date lat lon none 0 600000 rfl rfl (by decide) rfl]
  show classifyV (visValue ephW 0 600000) = .EV
  rw [classifyV_EV_iff]
  have hv : visValue ephW 0 600000 = 20 - odehLimit 1 := by
    simp [visValue, ephW]
  rw [hv, odehLimit]
  norm_num

/-- C4 counterexample: the partition claim is false on the code at worker
count 4.  Latitude -30 lies in the scan range of worker 0 (whose band runs
from -60 to -30 inclusive) and also of worker 1 (whose band starts at -30),
so its cells are scanned and classified by two different workers; with the
uniform oracle ephGridW the cell at latitude -30, longitude -179 appears at
least twice in the concatenated result.  Moreover the targeted search scans
latitude -60, which is outside the full-grid lattice of latitudes -59 to 59,
so the two modes do not scan the same lattice. -/
theorem grid_partition_c4_counterexample :
    ((-30 : ℚ) ∈ ratRange (latStartQ 4 0) (latEndQ 4 0) 2
      ∧ (-30 : ℚ) ∈ ratRange (latStartQ 4 1) (latEndQ 4 1) 2)
    ∧ ((-60 : ℚ) ∈ ratRange (latStartQ 4 0) (latEndQ 4 0) 2
      ∧ (-60 : ℚ) ∉ fullGridLats)
    ∧ 2 ≤ (searchSharedAll ephGridW 0 0 3600000 none 4).countP
        (fun c => decide (c.lat = -30 ∧ c.lon = -179)) := by
  have hb0 : (-30 : ℚ) ∈ ratRange (latStartQ 4 0) (latEndQ 4 0) 2 :=
    (mem_ratRange (by norm_num)).mpr ⟨15, by norm_num [latStartQ], by norm_num [latStartQ, latEndQ]⟩
  have hb1 : (-30 : ℚ) ∈ ratRange (latStartQ 4 1) (latEndQ 4 1) 2 :=
    (mem_ratRange (by norm_num)).mpr ⟨0, by norm_num [latStartQ], by norm_num [latStartQ, latEndQ]⟩
  have hlon : (-179 : ℚ) ∈ ratRange (-179) 179 2 :=
    (mem_ratRange (by norm_num)).mpr ⟨0, by norm_num, by norm_num⟩
  refine ⟨⟨hb0, hb1⟩, ⟨?_, ?_⟩, ?_⟩
  · exact (mem_ratRange (by norm_num)).mpr ⟨0, by norm_num [latStartQ], by norm_num [latStartQ, latEndQ]⟩
  · intro hmem
    obtain ⟨i, heq, -⟩ := (mem_ratRange (by norm_num)).mp hmem
    have hge : (0 : ℚ) ≤ (i : ℚ) := Nat.cast_nonneg i
    have : (-60 : ℚ) = -59 + 2 * i := heq
    linarith
  · have hcode : (getVisibility (ephGridW (-30) (-179)) 0 (-30) (-179) none).code = .VO
        ∨ (getVisibility (ephGridW (-30) (-179)) 0 (-30) (-179) none).code = .VP
        ∨ (getVisibility (ephGridW (-30) (-179)) 0 (-30) (-179) none).code = .EV :=
      Or.inr (Or.inr (ephW_code_EV 0 (-30) (-179)))
    have hm0 := searchShared_mem_intro ephGridW 0 0 3600000 none
      (latStartQ 4 0) (latEndQ 4 0) (-30) (-179) ⟨0, 3600000, -30, normalizeLon (-179)⟩
      hb0 hlon rfl (by decide) (by decide) hcode
    have hm1 := searchShared_mem_intro ephGridW 0 0 3600000 none
      (latStartQ 4 1) (latEndQ 4 1) (-30) (-179) ⟨0, 3600000, -30, normalizeLon (-179)⟩
      hb1 hlon rfl (by decide) (by decide) hcode
    have hsplit : searchSharedAll ephGridW 0 0 3600000 none 4
        = searchShared ephGridW 0 0 3600000 none (latStartQ 4 0) (latEndQ 4 0)
          ++ (searchShared ephGridW 0 0 3600000 none (latStartQ 4 1) (latEndQ 4 1)
          ++ (searchShared ephGridW 0 0 3600000 none (latStartQ 4 2) (latEndQ 4 2)
          ++ (searchShared ephGridW 0 0 3600000 none (latStartQ 4 3) (latEndQ 4 3) ++ []))) :=
      rfl
    rw [hsplit, List.countP_append, List.countP_append, List.countP_append,
      List.countP_append]
    have hp0 : 0 < (searchShared ephGridW 0 0 3600000 none
        (latStartQ 4 0) (latEndQ 4 0)).countP
        (fun c => decide (c.lat = -30 ∧ c.lon = -179)) :=
      List.countP_pos.mpr ⟨_, hm0, by simp⟩
    have hp1 : 0 < (searchShared ephGridW 0 0 3600000 none
        (latStartQ 4 1) (latEndQ 4 1)).countP
        (fun c => decide (c.lat = -30 ∧ c.lon = -179)) :=
      List.countP_pos.mpr ⟨_, hm1, by simp⟩
    omega

/-- C4 amended: band-partition structure of the targeted search.  For every
worker count in the clamp range, worker 0 starts at latitude -60, every
band has the equal width 120 / N (the min with 60 never truncates), the
bands are contiguous (each band ends where the next starts, the last ends
at 60), and every latitude of the interval from -60 to 60 is covered by at
least one band.  The two scan modes do not use the same lattice and a
boundary latitude lies in two bands, as the counterexample shows. -/
theorem grid_partition_c4_amended (N : ℕ) (h4 : 4 ≤ N) (h16 : N ≤ 16) :
    latStartQ N 0 = -60
    ∧ (∀ k, k < N → latEndQ N k = latStartQ N k + 120 / (N : ℚ))
    ∧ (∀ k, k + 1 < N → latEndQ N k = latStartQ N (k + 1))
    ∧ latEndQ N (N - 1) = 60
    ∧ (∀ x : ℚ, -60 ≤ x → x ≤ 60 →
        ∃ k, k < N ∧ latStartQ N k ≤ x ∧ x ≤ latEndQ N k) := by
  have hN0 : (0 : ℚ) < (N : ℚ) := by
    have : 0 < N := by omega
    exact_mod_cast this
  have hNne : (N : ℚ) ≠ 0 := ne_of_gt hN0
  have hw : (0 : ℚ) < 120 / (N : ℚ) := by positivity
  have h120 : (N : ℚ) * (120 / (N : ℚ)) = 120 := by field_simp
  have hwidth : ∀ k, k < N → latEndQ N k = latStartQ N k + 120 / (N : ℚ) := by
    intro k hk
    have hk1 : ((k : ℚ) + 1) ≤ (N : ℚ) := by exact_mod_cast (by omega : k + 1 ≤ N)
    have hb : ((k : ℚ) + 1) * (120 / (N : ℚ)) ≤ (N : ℚ) * (120 / (N : ℚ)) :=
      mul_le_mul_of_nonneg_right hk1 hw.le
    rw [h120] at hb
    simp only [latEndQ, latStartQ]
    rw [min_eq_right (by nlinarith)]
  have hcast : ((N - 1 : ℕ) : ℚ) = (N : ℚ) - 1 := by
    have h1 : (1 : ℕ) ≤ N := by omega
    push_cast [h1]
    ring
  refine ⟨by simp [latStartQ], hwidth, ?_, ?_, ?_⟩
  · intro k hk
    rw [hwidth k (by omega)]
    simp only [latStartQ]
    push_cast
    ring
  · rw [hwidth (N - 1) (by omega)]
    simp only [latStartQ, hcast]
    field_simp
    ring
  · intro x hx1 hx2
    set t : ℚ := (x + 60) * (N : ℚ) / 120 with ht
    have ht0 : 0 ≤ t := by
      rw [ht]
      apply div_nonneg (mul_nonneg (by linarith) hN0.le) (by norm_num)
    have htN : t ≤ (N : ℚ) := by
      rw [ht, div_le_iff (by norm_num : (0 : ℚ) < 120)]
      nlinarith
    have htw : t * (120 / (N : ℚ)) = x + 60 := by
      rw [ht]
      field_simp
    have hfl0 : 0 ≤ ⌊t⌋ := Int.floor_nonneg.mpr ht0
    refine ⟨min (N - 1) (⌊t⌋.toNat), by omega, ?_, ?_⟩
    · have hk_le_t : ((min (N - 1) (⌊t⌋.toNat) : ℕ) : ℚ) ≤ t := by
        rcases le_or_lt (⌊t⌋.toNat) (N - 1) with hmin | hmin
        · rw [min_eq_right hmin]
          have hchain : ((⌊t⌋.toNat : ℕ) : ℚ) = ((⌊t⌋ : ℤ) : ℚ) := by
            exact_mod_cast Int.toNat_of_nonneg hfl0
          rw [hchain]
          exact_mod_cast Int.floor_le t
        · rw [min_eq_left hmin.le]
          have hN_le : (N : ℤ) ≤ ⌊t⌋ := by omega
          have : ((N - 1 : ℕ) : ℚ) ≤ ((⌊t⌋ : ℤ) : ℚ) := by
            rw [hcast]
            have : ((N : ℤ) : ℚ) ≤ ((⌊t⌋ : ℤ) : ℚ) := by exact_mod_cast hN_le
            push_cast at this ⊢
            linarith
          calc ((N - 1 : ℕ) : ℚ) ≤ ((⌊t⌋ : ℤ) : ℚ) := this
          _ ≤ t := Int.floor_le t
      have hmul : ((min (N - 1) (⌊t⌋.toNat) : ℕ) : ℚ) * (120 / (N : ℚ))
          ≤ t * (120 / (N : ℚ)) := mul_le_mul_of_nonneg_right hk_le_t hw.le
      rw [htw] at hmul
      simp only [latStartQ]
      linarith
    · have ht_le_k1 : t ≤ ((min (N - 1) (⌊t⌋.toNat) : ℕ) : ℚ) + 1 := by
        rcases le_or_lt (⌊t⌋.toNat) (N - 1) with hmin | hmin
        · rw [min_eq_right hmin]
          have hchain : ((⌊t⌋.toNat : ℕ) : ℚ) = ((⌊t⌋ : ℤ) : ℚ) := by
            exact_mod_cast Int.toNat_of_nonneg hfl0
          rw [hchain]
          exact le_of_lt (Int.lt_floor_add_one t)
        · rw [min_eq_left hmin.le, hcast]
          linarith
      have hmul : t * (120 / (N : ℚ))
          ≤ (((min (N - 1) (⌊t⌋.toNat) : ℕ) : ℚ) + 1) * (120 / (N : ℚ)) :=
        mul_le_mul_of_nonneg_right ht_le_k1 hw.le
      rw [htw] at hmul
      simp only [latEndQ, latStartQ]
      apply le_min hx2
      nlinarith

/-- C4 witness: the amended partition facts applied at worker count 4,
projecting the coverage of latitude 0. -/
theorem grid_partition_c4_witness :
    ∃ k, k < 4 ∧ latStartQ 4 k ≤ (0 : ℚ) ∧ (0 : ℚ) ≤ latEndQ 4 k :=
  (grid_partition_c4_amended 4 (by norm_num) (by norm_num)).2.2.2.2 0
    (by norm_num) (by norm_num)
